import Mathlib

/-!
Shallow embedding of the uncertainty-evaluation core of the essay-grading
repository (files `src/utils/ue_metric_func.py`, `src/utils/cfunctions.py`,
`src/reg_train.py`, `src/eval_ue.py`), together with theorems settling the
frozen claims about it.

Numeric values flowing through the metric engine are modelled as rationals
(`ℚ`); the heteroscedastic loss, which uses the exponential function, is
modelled over `ℝ`.  Python/numpy failures (out-of-range indexing, division by
zero, broadcast failures) are modelled with an explicit error type in
`Except`; the error type also carries the error names the specification
postulates (`InvalidInputError`, `ShapeMismatchError`, `InvalidRangeError`)
so that statements about them are not vacuous — the embedded code never
produces them, mirroring the source, which never raises them.
-/

/-- Errors a run of the embedded Python code can end in.  The first three
are what the numpy/Python source actually raises; the last three are the
error classes named by the specification, which the source never defines
nor raises. -/
inductive PyErr where
  | indexError
  | zeroDivisionError
  | valueError
  | invalidInputError
  | shapeMismatchError
  | invalidRangeError
  deriving DecidableEq, Repr

/-- Descending comparison on (confidence, risk) pairs by confidence:
`cr_pair.sort(key=lambda x: x[0], reverse=True)`.  `descConf a b` holds when
`a` may come before `b` in the descending order. -/
def descConf (a b : ℚ × ℚ) : Prop := b.1 ≤ a.1

instance : DecidableRel descConf := fun a b => inferInstanceAs (Decidable (b.1 ≤ a.1))

/-- Ascending comparison on (confidence, risk) pairs by confidence:
`cr_pair.sort(key=lambda x: x[0], reverse=False)`. -/
def ascConf (a b : ℚ × ℚ) : Prop := a.1 ≤ b.1

instance : DecidableRel ascConf := fun a b => inferInstanceAs (Decidable (a.1 ≤ b.1))

/-- Python's `list.sort(key=lambda x: x[0], reverse=True)` — a stable sort
placing larger confidences first.  Insertion sort with the non-strict
descending comparison is stable: a later element is inserted after earlier
elements of equal key. -/
def sortDesc (l : List (ℚ × ℚ)) : List (ℚ × ℚ) := l.insertionSort descConf

/-- Python's `list.sort(key=lambda x: x[0], reverse=False)` — the stable
ascending sort used by `calc_rpp`. -/
def sortAsc (l : List (ℚ × ℚ)) : List (ℚ × ℚ) := l.insertionSort ascConf

/-- The cumulative-risk building loop of `calc_rcc_auc`:
`for i in range(1, n): cumulative_risk.append(cr_pair[i][1] + cumulative_risk[-1])`.
The first argument is the yet unvisited tail of `cr_pair` (the loop walks
`cr_pair[1]`, `cr_pair[2]`, …), the second the running last cumulative value,
the third how many iterations remain (`n - 1` at the start); indexing past
the end of `cr_pair` is Python's `IndexError`. -/
def cumulLoop : Nat → List (ℚ × ℚ) → ℚ → Except PyErr (List ℚ)
  | 0, _, _ => .ok []
  | fuel + 1, ps, last =>
    match ps with
    | [] => .error .indexError
    | p :: ps' =>
      match cumulLoop fuel ps' (p.2 + last) with
      | .error e => .error e
      | .ok rest => .ok ((p.2 + last) :: rest)

/-- Embedding of `calc_rcc_auc(conf, risk)` from `src/utils/ue_metric_func.py`.
`n = len(conf)`; the zipped pairs are stably sorted by confidence descending;
`cumulative_risk = [cr_pair[0][1]]` raises `IndexError` on an empty list;
the building loop appends `n - 1` further sums.  When the building loop
finishes, `len(cumulative_risk) == n`, so the final loop's indexing
`cumulative_risk[k]` for `k in range(n)` cannot fail and is modelled with
`getD`; `auc` accumulates the same values that are appended to `points_y`,
hence it equals their sum. -/
def calc_rcc_auc (conf risk : List ℚ) : Except PyErr (ℚ × List ℚ × List ℚ) :=
  let n := conf.length
  match sortDesc (conf.zip risk) with
  | [] => .error .indexError
  | p :: rest =>
    match cumulLoop (n - 1) rest p.2 with
    | .error e => .error e
    | .ok tailc =>
      let cumulative := p.2 :: tailc
      let points_y := (List.range n).map fun k => cumulative.getD k 0 / ((k : ℚ) + 1)
      let points_x := (List.range n).map fun k => ((k : ℚ) + 1) / (n : ℚ)
      .ok (points_y.sum, points_x, points_y)

/-- Mathematical cumulative sums of a risk sequence: `c[0] = r[0]`,
`c[k] = c[k-1] + r[k]`.  Used on the specification side of the claims to
describe what the building loop of `calc_rcc_auc` computes. -/
def fullCumul : List ℚ → List ℚ
  | [] => []
  | r :: rs => List.scanl (fun acc x => x + acc) r rs

/-- The cumulative risk sequence of the stably descending-sorted
(confidence, risk) pairs, as the claims describe it. -/
def cumulativeRiskSpec (conf risk : List ℚ) : List ℚ :=
  fullCumul ((sortDesc (conf.zip risk)).map Prod.snd)

theorem scanl_cons_tail (f : ℚ → ℚ → ℚ) (c : ℚ) (l : List ℚ) :
    List.scanl f c l = c :: (List.scanl f c l).tail := by
  cases l <;> rfl

theorem cumulLoop_ok (ps : List (ℚ × ℚ)) (last : ℚ) :
    cumulLoop ps.length ps last =
      .ok ((List.scanl (fun acc x => x + acc) last (ps.map Prod.snd)).tail) := by
  induction ps generalizing last with
  | nil => rfl
  | cons p ps ih =>
    simp only [List.length_cons, cumulLoop, ih (p.2 + last), List.map_cons, List.scanl,
      List.tail_cons]
    rw [← scanl_cons_tail]

deriving instance DecidableEq for Except

theorem calc_rcc_auc_ok (conf risk : List ℚ) (hne : conf ≠ []) (hlen : conf.length ≤ risk.length) :
    calc_rcc_auc conf risk = .ok
      (((List.range conf.length).map fun k =>
          (cumulativeRiskSpec conf risk).getD k 0 / ((k : ℚ) + 1)).sum,
       (List.range conf.length).map fun k => ((k : ℚ) + 1) / (conf.length : ℚ),
       (List.range conf.length).map fun k =>
          (cumulativeRiskSpec conf risk).getD k 0 / ((k : ℚ) + 1)) := by
  have hzlen : (conf.zip risk).length = conf.length := by
    rw [List.length_zip]
    exact Nat.min_eq_left hlen
  have hslen : (sortDesc (conf.zip risk)).length = conf.length := by
    rw [sortDesc, List.length_insertionSort, hzlen]
  obtain ⟨p, rest, hp⟩ : ∃ p rest, sortDesc (conf.zip risk) = p :: rest := by
    cases h : sortDesc (conf.zip risk) with
    | nil =>
      exfalso
      rw [h, List.length_nil] at hslen
      exact hne (List.length_eq_zero.mp hslen.symm)
    | cons p rest => exact ⟨p, rest, rfl⟩
  have hrest : rest.length = conf.length - 1 := by
    have h := hslen
    rw [hp, List.length_cons] at h
    omega
  have hcum : cumulativeRiskSpec conf risk =
      List.scanl (fun acc x => x + acc) p.2 (rest.map Prod.snd) := by
    rw [cumulativeRiskSpec, hp, List.map_cons, fullCumul]
  rw [hcum]
  unfold calc_rcc_auc
  rw [hp]
  dsimp only
  rw [← hrest, cumulLoop_ok]
  dsimp only
  rw [← scanl_cons_tail]

/-- C1: for every non-empty pair of equal-length (confidence, risk) sequences,
`calc_rcc_auc` returns the AUC `∑ k, cumulative_risk[k]/(k+1)` over the stably
descending-sorted pairs — a plain sum with no division by `n` — together with
the coverage sequence `[(k+1)/n]` and the per-rank average-risk sequence
`[cumulative_risk[k]/(k+1)]`; in particular on `([3,2,1], [0,1,1])` it returns
AUC `0/1 + 1/2 + 2/3` (which is within `10⁻⁴` of `1.1667`) and coverage
`[1/3, 2/3, 1]`. -/
theorem calc_rcc_auc_spec :
    (∀ conf risk : List ℚ, conf ≠ [] → conf.length = risk.length →
      calc_rcc_auc conf risk = .ok
        (∑ k in Finset.range conf.length,
            (cumulativeRiskSpec conf risk).getD k 0 / ((k : ℚ) + 1),
         (List.range conf.length).map fun k => ((k : ℚ) + 1) / (conf.length : ℚ),
         (List.range conf.length).map fun k =>
            (cumulativeRiskSpec conf risk).getD k 0 / ((k : ℚ) + 1))) ∧
    calc_rcc_auc [3, 2, 1] [0, 1, 1] =
      .ok (0 / 1 + 1 / 2 + 2 / 3, [1 / 3, 2 / 3, 1], [0 / 1, 1 / 2, 2 / 3]) ∧
    |(0 / 1 + 1 / 2 + 2 / 3 : ℚ) - 1.1667| ≤ 1 / 10 ^ 4 := by
  refine ⟨fun conf risk hne hlen => calc_rcc_auc_ok conf risk hne (le_of_eq hlen), ?_,
    by norm_num [abs_le]⟩
  rw [calc_rcc_auc_ok _ _ (by simp) (by simp)]
  norm_num [cumulativeRiskSpec, sortDesc, List.insertionSort, List.orderedInsert, descConf,
    fullCumul, List.scanl, List.range_succ]

theorem calc_rcc_auc_spec_witness :
    ([3, 2, 1] : List ℚ) ≠ [] ∧ ([3, 2, 1] : List ℚ).length = ([0, 1, 1] : List ℚ).length ∧
    calc_rcc_auc [3, 2, 1] [0, 1, 1] = .ok
      (∑ k in Finset.range ([3, 2, 1] : List ℚ).length,
          (cumulativeRiskSpec [3, 2, 1] [0, 1, 1]).getD k 0 / ((k : ℚ) + 1),
       (List.range ([3, 2, 1] : List ℚ).length).map fun k =>
          ((k : ℚ) + 1) / ((([3, 2, 1] : List ℚ).length : ℕ) : ℚ),
       (List.range ([3, 2, 1] : List ℚ).length).map fun k =>
          (cumulativeRiskSpec [3, 2, 1] [0, 1, 1]).getD k 0 / ((k : ℚ) + 1)) :=
  ⟨by simp, rfl, calc_rcc_auc_spec.1 [3, 2, 1] [0, 1, 1] (by simp) rfl⟩

instance : IsTotal (ℚ × ℚ) descConf := ⟨fun a b => le_total b.1 a.1⟩

instance : IsTrans (ℚ × ℚ) descConf := ⟨fun _ _ _ hab hbc => le_trans hbc hab⟩

theorem filter_key_orderedInsert (c : ℚ) (a : ℚ × ℚ) (l : List (ℚ × ℚ)) :
    (l.orderedInsert descConf a).filter (fun p => decide (p.1 = c)) =
      if a.1 = c then a :: l.filter (fun p => decide (p.1 = c))
      else l.filter (fun p => decide (p.1 = c)) := by
  rw [List.orderedInsert_eq_take_drop, List.filter_append]
  by_cases hc : a.1 = c
  · have htake : (List.takeWhile (fun b => decide ¬descConf a b) l).filter
        (fun p => decide (p.1 = c)) = [] := by
      rw [List.filter_eq_nil_iff]
      intro x hx
      have := List.mem_takeWhile_imp hx
      simp only [descConf, decide_eq_true_eq, not_le] at this
      simp only [decide_eq_true_eq]
      intro hxc
      rw [hc] at this
      exact absurd hxc (ne_of_gt this)
    rw [htake, if_pos hc]
    have : (a :: List.dropWhile (fun b => decide ¬descConf a b) l).filter
        (fun p => decide (p.1 = c)) =
        a :: (List.dropWhile (fun b => decide ¬descConf a b) l).filter
          (fun p => decide (p.1 = c)) := by
      rw [List.filter_cons_of_pos]
      simp [hc]
    rw [this, List.nil_append]
    congr 1
    conv_rhs => rw [← List.takeWhile_append_dropWhile (fun b => decide ¬descConf a b) l]
    rw [List.filter_append, htake, List.nil_append]
  · rw [if_neg hc]
    have : (a :: List.dropWhile (fun b => decide ¬descConf a b) l).filter
        (fun p => decide (p.1 = c)) =
        (List.dropWhile (fun b => decide ¬descConf a b) l).filter
          (fun p => decide (p.1 = c)) := by
      rw [List.filter_cons_of_neg]
      simp [hc]
    rw [this]
    conv_rhs => rw [← List.takeWhile_append_dropWhile (fun b => decide ¬descConf a b) l]
    rw [List.filter_append]

theorem filter_key_insertionSort (c : ℚ) (l : List (ℚ × ℚ)) :
    (l.insertionSort descConf).filter (fun p => decide (p.1 = c)) =
      l.filter (fun p => decide (p.1 = c)) := by
  induction l with
  | nil => rfl
  | cons a l ih =>
    rw [List.insertionSort, filter_key_orderedInsert, ih]
    by_cases hc : a.1 = c
    · rw [if_pos hc, List.filter_cons_of_pos]
      simp [hc]
    · rw [if_neg hc, List.filter_cons_of_neg]
      simp [hc]

/-- C5: the sort in `calc_rcc_auc` orders examples by confidence descending and
is stable: it is a permutation of the input, pairwise non-increasing in
confidence, examples with any given confidence value keep their original
relative order, and the output of `calc_rcc_auc` is a function of the input
length and this stable descending ordering alone. -/
theorem sortDesc_stable :
    (∀ l : List (ℚ × ℚ), (sortDesc l).Perm l) ∧
    (∀ l : List (ℚ × ℚ), (sortDesc l).Pairwise fun a b => b.1 ≤ a.1) ∧
    (∀ (l : List (ℚ × ℚ)) (c : ℚ),
      (sortDesc l).filter (fun p => decide (p.1 = c)) =
        l.filter (fun p => decide (p.1 = c))) ∧
    (∀ conf₁ risk₁ conf₂ risk₂ : List ℚ, conf₁.length = conf₂.length →
      sortDesc (conf₁.zip risk₁) = sortDesc (conf₂.zip risk₂) →
      calc_rcc_auc conf₁ risk₁ = calc_rcc_auc conf₂ risk₂) := by
  refine ⟨fun l => List.perm_insertionSort descConf l,
          fun l => List.sorted_insertionSort descConf l,
          fun l c => filter_key_insertionSort c l,
          fun conf₁ risk₁ conf₂ risk₂ hlen hsort => ?_⟩
  unfold calc_rcc_auc
  rw [hlen, hsort]

theorem sortDesc_stable_witness :
    (sortDesc [((1 : ℚ), (5 : ℚ)), (1, 7)]).filter (fun p => decide (p.1 = 1)) =
      [((1 : ℚ), (5 : ℚ)), (1, 7)].filter (fun p => decide (p.1 = 1)) ∧
    calc_rcc_auc [1, 1] [5, 7] = calc_rcc_auc [1, 1] [5, 7] :=
  ⟨sortDesc_stable.2.2.1 [((1 : ℚ), (5 : ℚ)), (1, 7)] 1,
   sortDesc_stable.2.2.2 [1, 1] [5, 7] [1, 1] [5, 7] rfl rfl⟩

/-- The reversal-counting double loop of `calc_rpp`:
`for i in range(n): for j in range(i, n): if cr_pair[i][1] < cr_pair[j][1]: cnt += 1`.
When this loop runs without an `IndexError` (see `calc_rpp`), the sorted pair
list has length `n`, so indexing is total and modelled with `getD`. -/
def rppCnt (pairs : List (ℚ × ℚ)) (n : Nat) : Nat :=
  ∑ i in Finset.range n, ∑ j in Finset.Ico i n,
    if (pairs.getD i (0, 0)).2 < (pairs.getD j (0, 0)).2 then 1 else 0

/-- Embedding of `calc_rpp(conf, risk)` from `src/utils/ue_metric_func.py`.
`n = len(conf)`; the zipped pairs are stably sorted by confidence ascending.
If the sorted pair list is shorter than `n` (possible only when `risk` is
shorter than `conf`, since `zip` truncates), the double loop's first
out-of-range access raises `IndexError`; otherwise, when `n = 0`, the final
`cnt / n**2` is Python's division by zero; otherwise the reversal count
divided by `n²` is returned. -/
def calc_rpp (conf risk : List ℚ) : Except PyErr ℚ :=
  let n := conf.length
  let cr_pair := sortAsc (conf.zip risk)
  if cr_pair.length < n then .error .indexError
  else if n = 0 then .error .zeroDivisionError
  else .ok ((rppCnt cr_pair n : ℚ) / ((n ^ 2 : ℕ) : ℚ))

theorem rppCnt_eq_card (pairs : List (ℚ × ℚ)) (n : Nat) :
    rppCnt pairs n = ((Finset.range n ×ˢ Finset.range n).filter fun ij =>
      ij.1 ≤ ij.2 ∧ (pairs.getD ij.1 (0, 0)).2 < (pairs.getD ij.2 (0, 0)).2).card := by
  rw [Finset.card_filter, Finset.sum_product]
  unfold rppCnt
  refine Finset.sum_congr rfl fun i _ => ?_
  have hset : Finset.Ico i n = (Finset.range n).filter fun j => i ≤ j := by
    ext j
    simp only [Finset.mem_Ico, Finset.mem_filter, Finset.mem_range]
    exact ⟨fun h => ⟨h.2, h.1⟩, fun h => ⟨h.2, h.1⟩⟩
  rw [hset, Finset.sum_filter]
  refine Finset.sum_congr rfl fun j _ => ?_
  rw [ite_and]

theorem calc_rpp_ok (conf risk : List ℚ) (hne : conf ≠ []) (hlen : conf.length ≤ risk.length) :
    calc_rpp conf risk =
      .ok ((rppCnt (sortAsc (conf.zip risk)) conf.length : ℚ) /
        ((conf.length ^ 2 : ℕ) : ℚ)) := by
  have hslen : (sortAsc (conf.zip risk)).length = conf.length := by
    rw [sortAsc, List.length_insertionSort, List.length_zip]
    exact Nat.min_eq_left hlen
  unfold calc_rpp
  dsimp only
  rw [hslen, if_neg (lt_irrefl conf.length),
    if_neg (fun h => hne (List.length_eq_zero.mp h))]

/-- C4: for every non-empty pair of equal-length (confidence, risk) sequences,
`calc_rpp` stably sorts the pairs by confidence ascending, counts the index
pairs `(i, j)` with `i ≤ j` in sorted order whose risks satisfy
`risk[i] < risk[j]` strictly, and returns that count divided by `n²`; in
particular on confidence `[1,2,3]` and risk `[1,0,0]` the count over the
`i ≤ j` pairs is `0` and the result is `0/9`. -/
theorem calc_rpp_spec :
    (∀ conf risk : List ℚ, conf ≠ [] → conf.length = risk.length →
      calc_rpp conf risk = .ok
        (((((Finset.range conf.length ×ˢ Finset.range conf.length).filter fun ij =>
            ij.1 ≤ ij.2 ∧ ((sortAsc (conf.zip risk)).getD ij.1 (0, 0)).2 <
              ((sortAsc (conf.zip risk)).getD ij.2 (0, 0)).2).card : ℕ) : ℚ) /
          ((conf.length ^ 2 : ℕ) : ℚ))) ∧
    calc_rpp [1, 2, 3] [1, 0, 0] = .ok (0 / 9) := by
  constructor
  · intro conf risk hne hlen
    rw [calc_rpp_ok conf risk hne (le_of_eq hlen), rppCnt_eq_card]
  · rw [calc_rpp_ok [1, 2, 3] [1, 0, 0] (by simp) (by simp)]
    have hsort : sortAsc ([(1 : ℚ), 2, 3].zip [1, 0, 0]) = [(1, 1), (2, 0), (3, 0)] := by
      norm_num [sortAsc, List.insertionSort, List.orderedInsert, ascConf]
    rw [hsort]
    have hcnt : rppCnt [(1, 1), (2, 0), (3, 0)] 3 = 0 := by decide
    rw [show ([(1 : ℚ), 2, 3] : List ℚ).length = 3 from rfl, hcnt]
    norm_num

theorem calc_rpp_spec_witness :
    ([1, 2, 3] : List ℚ) ≠ [] ∧
    calc_rpp [1, 2, 3] [1, 0, 0] = .ok
      (((((Finset.range ([1, 2, 3] : List ℚ).length ×ˢ
            Finset.range ([1, 2, 3] : List ℚ).length).filter fun ij =>
          ij.1 ≤ ij.2 ∧
            ((sortAsc (([1, 2, 3] : List ℚ).zip [1, 0, 0])).getD ij.1 (0, 0)).2 <
            ((sortAsc (([1, 2, 3] : List ℚ).zip [1, 0, 0])).getD ij.2 (0, 0)).2).card : ℕ) : ℚ) /
        ((([1, 2, 3] : List ℚ).length ^ 2 : ℕ) : ℚ)) :=
  ⟨by simp, calc_rpp_spec.1 [1, 2, 3] [1, 0, 0] (by simp) rfl⟩

/-- C7 counterexample: on empty input neither `calc_rcc_auc` nor `calc_rpp`
raises `InvalidInputError` — no such error class exists in the source.
`calc_rcc_auc` fails at `cr_pair[0][1]` with an `IndexError`, and `calc_rpp`
fails at `cnt / n**2` with a `ZeroDivisionError` (`0 / 0`). -/
theorem empty_input_cex :
    calc_rcc_auc ([] : List ℚ) [] ≠ .error .invalidInputError ∧
    calc_rpp ([] : List ℚ) [] ≠ .error .invalidInputError ∧
    calc_rcc_auc ([] : List ℚ) [] = .error .indexError ∧
    calc_rpp ([] : List ℚ) [] = .error .zeroDivisionError := by
  refine ⟨?_, ?_, rfl, rfl⟩ <;> intro h <;> cases h

/-- C7 amended: for every empty confidence input (whatever the risk input),
`calc_rcc_auc` fails with the `IndexError` of `cr_pair[0][1]` and `calc_rpp`
fails with the `ZeroDivisionError` of `cnt / n**2`; no `InvalidInputError`
is raised because the source defines no such error. -/
theorem empty_input_amended : ∀ risk : List ℚ,
    calc_rcc_auc [] risk = .error .indexError ∧
    calc_rpp [] risk = .error .zeroDivisionError :=
  fun _ => ⟨rfl, rfl⟩

/-- numpy's `np.round` on a scalar: round half to even (banker's rounding). -/
def npRound (q : ℚ) : ℤ :=
  let f := ⌊q⌋
  let r := q - (f : ℚ)
  if r < 1 / 2 then f
  else if 1 / 2 < r then f + 1
  else if Even f then f else f + 1

/-- numpy's `astype('int32')` on a float value: truncation toward zero.
Int32 wraparound is not modelled; grading scores are tiny. -/
def truncInt (q : ℚ) : ℤ := if 0 ≤ q then ⌊q⌋ else ⌈q⌉

/-- Embedding of `score_f2int(score, prompt_id)` from `src/utils/cfunctions.py`:
`low, high = get_score_range(prompt_id); np.round(score*(high-low)+low).astype('int32')`.
The lookup `get_score_range` lives in `utils/dataset.py`, which is not among
the sources; following the specification (an injected static lookup
`promptId ↦ (low, high)` with integer grading bounds) it is passed here as
the explicit parameter `get_score_range`. -/
def score_f2int (get_score_range : ℕ → ℤ × ℤ) (score : List ℚ) (prompt_id : ℕ) : List ℤ :=
  let lh := get_score_range prompt_id
  score.map fun s => npRound (s * ((lh.2 - lh.1 : ℤ) : ℚ) + (lh.1 : ℚ))

/-- numpy broadcasting of a binary elementwise operation over two 1-D arrays:
the shapes must agree, or one of them must have length 1, in which case its
single element is paired with every element of the other; otherwise numpy
raises a `ValueError` (shape mismatch). -/
def npBroadcast2 {α β γ : Type} (f : α → β → γ) (a : List α) (b : List β) :
    Except PyErr (List γ) :=
  if a.length = b.length then .ok (List.zipWith f a b)
  else
    match a, b with
    | [x], b => .ok (b.map fun y => f x y)
    | a, [y] => .ok (a.map fun x => f x y)
    | _, _ => .error .valueError

/-- Embedding of `calc_risk(pred, true, reg_or_class, prompt_id, binary)` from
`src/utils/ue_metric_func.py`.  With `binary=True` and regression mode both
sides go through `score_f2int`; in classification mode both sides are cast
with `astype('int32')`; the risk is the elementwise mismatch indicator
`(int_scores != int_true).astype('int32')` (0/1 values, here as `ℚ`).  With
`binary=False` the risk is the elementwise squared error `(pred - true)²`.
Elementwise operations follow numpy broadcasting. -/
def calc_risk (get_score_range : ℕ → ℤ × ℤ) (pred ytrue : List ℚ) (reg_or_class : String)
    (prompt_id : ℕ) (binary : Bool) : Except PyErr (List ℚ) :=
  if binary then
    let int_scores := if reg_or_class = "reg" then score_f2int get_score_range pred prompt_id
      else pred.map truncInt
    let int_true := if reg_or_class = "reg" then score_f2int get_score_range ytrue prompt_id
      else ytrue.map truncInt
    npBroadcast2 (fun x y : ℤ => if x ≠ y then (1 : ℚ) else 0) int_scores int_true
  else
    npBroadcast2 (fun x y : ℚ => (x - y) ^ 2) pred ytrue

theorem npBroadcast2_eq_length {α β γ : Type} (f : α → β → γ) (a : List α) (b : List β)
    (h : a.length = b.length) : npBroadcast2 f a b = .ok (List.zipWith f a b) := by
  rw [npBroadcast2.eq_def, if_pos h]

theorem npBroadcast2_mismatch {α β γ : Type} (f : α → β → γ) (a : List α) (b : List β)
    (h : a.length ≠ b.length) (ha : a.length ≠ 1) (hb : b.length ≠ 1) :
    npBroadcast2 f a b = .error .valueError := by
  rw [npBroadcast2.eq_def, if_neg h]
  match a, b with
  | [], [] => exact absurd rfl h
  | [], _ :: _ :: _ => rfl
  | [_], _ => exact absurd rfl ha
  | _ :: _ :: _, [] => rfl
  | _ :: _ :: _, [_] => exact absurd rfl hb
  | _ :: _ :: _, _ :: _ :: _ => rfl

theorem calc_risk_branch_length (g : ℕ → ℤ × ℤ) (l : List ℚ) (c : Prop) [Decidable c]
    (pid : ℕ) :
    (if c then score_f2int g l pid else l.map truncInt).length = l.length := by
  split <;> simp [score_f2int]

/-- C8 counterexample: `calc_risk` performs no validation.  With a grading
range whose high bound is below its low bound (`get_score_range _ = (5, 3)`)
it computes normally instead of raising `InvalidRangeError`, and with inputs
of different lengths (1 vs 2) numpy broadcasting stretches the singleton and
returns a length-2 result instead of raising `ShapeMismatchError`. -/
theorem calc_risk_cex :
    calc_risk (fun _ => (5, 3)) [1 / 2] [1 / 2] "reg" 0 true = .ok [0] ∧
    calc_risk (fun _ => (5, 3)) [1 / 2] [1 / 2] "reg" 0 true ≠ .error .invalidRangeError ∧
    calc_risk (fun _ => (5, 3)) [1 / 2] [0, 1] "reg" 0 false = .ok [1 / 4, 1 / 4] ∧
    calc_risk (fun _ => (5, 3)) [1 / 2] [0, 1] "reg" 0 false ≠ .error .shapeMismatchError := by
  have h1 : calc_risk (fun _ => (5, 3)) [1 / 2] [1 / 2] "reg" 0 true = .ok [0] := by
    have hs : score_f2int (fun _ => (5, 3)) [1 / 2] 0 = [4] := by
      have : npRound ((1 : ℚ) / 2 * (((3 : ℤ) - 5 : ℤ) : ℚ) + ((5 : ℤ) : ℚ)) = 4 := by
        norm_num [npRound, Int.floor_eq_iff]
      simp only [score_f2int, List.map_cons, List.map_nil]
      norm_num at this ⊢
      exact this
    simp only [calc_risk, if_pos rfl, if_true, hs]
    rfl
  have h2 : calc_risk (fun _ => (5, 3)) [1 / 2] [0, 1] "reg" 0 false = .ok [1 / 4, 1 / 4] := by
    simp only [calc_risk, Bool.false_eq_true, if_false, npBroadcast2.eq_def]
    norm_num
  refine ⟨h1, ?_, h2, ?_⟩
  · rw [h1]; intro hc; cases hc
  · rw [h2]; intro hc; cases hc

/-- C8 amended: `calc_risk` validates nothing.  For equal-length inputs it
returns a result whose length equals the input length, for any grading range
(including ranges with `high ≤ low`, which raise nothing) and any mode; for
inputs of different lengths it raises numpy's broadcast `ValueError` —
not `ShapeMismatchError` — unless one operand has length 1, in which case
broadcasting silently stretches it (see `calc_risk_cex`). -/
theorem calc_risk_amended :
    (∀ (g : ℕ → ℤ × ℤ) (pred ytrue : List ℚ) (m : String) (pid : ℕ) (b : Bool),
      pred.length = ytrue.length →
      ∃ out, calc_risk g pred ytrue m pid b = .ok out ∧ out.length = pred.length) ∧
    (∀ (g : ℕ → ℤ × ℤ) (pred ytrue : List ℚ) (m : String) (pid : ℕ) (b : Bool),
      pred.length ≠ ytrue.length → pred.length ≠ 1 → ytrue.length ≠ 1 →
      calc_risk g pred ytrue m pid b = .error .valueError) := by
  constructor
  · intro g pred ytrue m pid b hlen
    cases b with
    | false =>
      refine ⟨List.zipWith (fun x y : ℚ => (x - y) ^ 2) pred ytrue, ?_, ?_⟩
      · simp only [calc_risk, Bool.false_eq_true, if_false]
        exact npBroadcast2_eq_length _ _ _ hlen
      · rw [List.length_zipWith, hlen, min_self]
    | true =>
      simp only [calc_risk, if_true]
      have hl : (if m = "reg" then score_f2int g pred pid else pred.map truncInt).length =
          (if m = "reg" then score_f2int g ytrue pid else ytrue.map truncInt).length := by
        rw [calc_risk_branch_length, calc_risk_branch_length, hlen]
      refine ⟨_, npBroadcast2_eq_length _ _ _ hl, ?_⟩
      rw [List.length_zipWith, hl, min_self, calc_risk_branch_length, hlen]
  · intro g pred ytrue m pid b hlen hp ht
    cases b with
    | false =>
      simp only [calc_risk, Bool.false_eq_true, if_false]
      exact npBroadcast2_mismatch _ _ _ hlen hp ht
    | true =>
      simp only [calc_risk, if_true]
      refine npBroadcast2_mismatch _ _ _ ?_ ?_ ?_ <;>
        simp only [calc_risk_branch_length] <;> assumption

theorem calc_risk_amended_witness :
    (∃ out, calc_risk (fun _ => (0, 10)) [1 / 2, 1] [0, 1] "reg" 3 true = .ok out ∧
      out.length = ([1 / 2, 1] : List ℚ).length) ∧
    calc_risk (fun _ => (0, 10)) [1, 2, 3] [0, 1] "reg" 3 true = .error .valueError :=
  ⟨calc_risk_amended.1 (fun _ => (0, 10)) [1 / 2, 1] [0, 1] "reg" 3 true rfl,
   calc_risk_amended.2 (fun _ => (0, 10)) [1, 2, 3] [0, 1] "reg" 3 true
     (by decide) (by decide) (by decide)⟩

theorem zipWith_sq_nonneg :
    ∀ (a b : List ℚ), ∀ r ∈ List.zipWith (fun x y : ℚ => (x - y) ^ 2) a b, 0 ≤ r := by
  intro a
  induction a with
  | nil => intro b r hr; cases hr
  | cons x a ih =>
    intro b r hr
    cases b with
    | nil => cases hr
    | cons y b =>
      rw [List.zipWith_cons_cons, List.mem_cons] at hr
      rcases hr with h | h
      · rw [h]; positivity
      · exact ih b r h

/-- C10: with `binary=False`, `calc_risk` returns the elementwise squared
difference `(pred - true)²` for every pair of equal-length inputs, for both
the regression and the classification mode and independently of the grading
range — no rounding or integer casting touches this branch — and every
element of the result is nonnegative. -/
theorem calc_risk_continuous :
    ∀ (g : ℕ → ℤ × ℤ) (pred ytrue : List ℚ) (m : String) (pid : ℕ),
      pred.length = ytrue.length →
      calc_risk g pred ytrue m pid false =
        .ok (List.zipWith (fun x y : ℚ => (x - y) ^ 2) pred ytrue) ∧
      ∀ r ∈ List.zipWith (fun x y : ℚ => (x - y) ^ 2) pred ytrue, 0 ≤ r := by
  intro g pred ytrue m pid hlen
  constructor
  · simp only [calc_risk, Bool.false_eq_true, if_false]
    exact npBroadcast2_eq_length _ _ _ hlen
  · exact zipWith_sq_nonneg pred ytrue

theorem calc_risk_continuous_witness :
    calc_risk (fun _ => (1, 3)) [4, 1] [1, 1] "class" 5 false =
      .ok (List.zipWith (fun x y : ℚ => (x - y) ^ 2) [4, 1] [1, 1]) ∧
    ∀ r ∈ List.zipWith (fun x y : ℚ => (x - y) ^ 2) ([4, 1] : List ℚ) [1, 1], 0 ≤ r :=
  calc_risk_continuous (fun _ => (1, 3)) [4, 1] [1, 1] "class" 5 rfl

/-- The confidence pipeline of the `##MP####` block of `src/eval_ue.py`
(lines 139–150): `uncertainty = -foldr['MP']`, and every metric call receives
`conf=-uncertainty`. -/
def mpConf (MP : List ℚ) : List ℚ :=
  let uncertainty := MP.map fun v => -v
  uncertainty.map fun v => -v

/-- Embedding of one fold of the `##MP####` block of `src/eval_ue.py`:
`pred = np.argmax(foldr['logits'], axis=-1)` is computed upstream and passed
here as `pred`; `risk = calc_risk(pred, true, 'class', prompt_id, binary=True)`;
`calc_rcc_auc` and `calc_rpp` are then called with `conf=-uncertainty`
(= `mpConf MP`) and that risk.  (`calc_roc_auc` receives the same `conf`
expression but wraps sklearn's `roc_auc_score`, an external collaborator, and
is not modelled.) -/
def mpFold (get_score_range : ℕ → ℤ × ℤ) (labels pred MP : List ℚ) (prompt_id : ℕ) :
    Except PyErr ((Except PyErr (ℚ × List ℚ × List ℚ)) × Except PyErr ℚ) :=
  match calc_risk get_score_range pred labels "class" prompt_id true with
  | .error e => .error e
  | .ok risk => .ok (calc_rcc_auc (mpConf MP) risk, calc_rpp (mpConf MP) risk)

/-- C2 counterexample: the confidence the `##MP####` block feeds to the
metrics is NOT the elementwise negation of the `MP` field: for the record
`MP = [3/4, 1/4]` the block passes `[3/4, 1/4]` itself (the two sign flips
cancel), and feeding the negated field would even change the resulting
RCC-AUC, so the difference is observable in the metrics. -/
theorem mp_confidence_cex :
    mpConf [3 / 4, 1 / 4] ≠ [-(3 / 4), -(1 / 4)] ∧
    mpConf [3 / 4, 1 / 4] = [3 / 4, 1 / 4] ∧
    mpFold (fun _ => (0, 3)) [0, 0] [0, 1] [3 / 4, 1 / 4] 0 =
      .ok (calc_rcc_auc [3 / 4, 1 / 4] [0, 1], calc_rpp [3 / 4, 1 / 4] [0, 1]) ∧
    calc_rcc_auc [3 / 4, 1 / 4] [0, 1] ≠ calc_rcc_auc [-(3 / 4), -(1 / 4)] [0, 1] := by
  have hconf : mpConf [3 / 4, 1 / 4] = [3 / 4, 1 / 4] := by
    simp [mpConf]
  have hrisk : calc_risk (fun _ => (0, 3)) [0, 1] [0, 0] "class" 0 true = .ok [0, 1] := by
    simp only [calc_risk, if_true, if_neg (by decide : ¬("class" = "reg"))]
    rw [npBroadcast2_eq_length _ _ _ (by simp)]
    norm_num [truncInt]
  refine ⟨?_, hconf, ?_, ?_⟩
  · rw [hconf]
    intro h
    rw [List.cons.injEq] at h
    norm_num at h
  · rw [mpFold, hrisk, hconf]
  · rw [calc_rcc_auc_ok _ _ (by simp) (by simp), calc_rcc_auc_ok _ _ (by simp) (by simp)]
    intro h
    rw [Except.ok.injEq, Prod.mk.injEq] at h
    have h1 := h.1
    norm_num [cumulativeRiskSpec, sortDesc, List.insertionSort, List.orderedInsert, descConf,
      fullCumul, List.scanl, List.range_succ] at h1

/-- C2 amended: for the classification max-probability method the block sets
`uncertainty = -MP` and passes `confidence = -uncertainty` to the metrics, so
the confidence sequence fed to `calc_rcc_auc` and `calc_rpp` equals the `MP`
field itself — the field is already confidence-like and the two negations
cancel. -/
theorem mp_confidence_amended :
    (∀ MP : List ℚ, mpConf MP = MP) ∧
    (∀ (g : ℕ → ℤ × ℤ) (labels pred MP : List ℚ) (pid : ℕ) (risk : List ℚ),
      calc_risk g pred labels "class" pid true = .ok risk →
      mpFold g labels pred MP pid = .ok (calc_rcc_auc MP risk, calc_rpp MP risk)) := by
  have hconf : ∀ MP : List ℚ, mpConf MP = MP := by
    intro MP
    simp [mpConf]
  refine ⟨hconf, fun g labels pred MP pid risk h => ?_⟩
  rw [mpFold, h, hconf]

theorem mp_confidence_amended_witness :
    mpConf [9 / 10] = [9 / 10] ∧
    mpFold (fun _ => (0, 3)) [0, 0] [0, 1] [3 / 4, 1 / 4] 2 =
      .ok (calc_rcc_auc [3 / 4, 1 / 4] [0, 1], calc_rpp [3 / 4, 1 / 4] [0, 1]) :=
  ⟨mp_confidence_amended.1 [9 / 10],
   mp_confidence_amended.2 (fun _ => (0, 3)) [0, 0] [0, 1] [3 / 4, 1 / 4] 2 [0, 1]
    (by
      simp only [calc_risk, if_true, if_neg (by decide : ¬("class" = "reg"))]
      rw [npBroadcast2_eq_length _ _ _ (by simp)]
      norm_num [truncInt])⟩

/-- State of the `EarlyStopping` classes (identical fields in
`src/utils/cfunctions.py` and `src/reg_train.py`): stop-counter patience,
current counter, best score so far (`None` before the first call), the stop
flag, and the remembered best validation loss (`np.Inf` initially, modelled
as `⊤`). -/
structure EarlyStopping where
  patience : ℕ
  counter : ℕ
  best_score : Option ℚ
  early_stop : Bool
  val_loss_min : WithTop ℚ
  deriving DecidableEq

/-- `EarlyStopping.__init__(patience)`: counter 0, no best score, not
stopped, `val_loss_min = np.Inf`. -/
def esInit (patience : ℕ) : EarlyStopping :=
  ⟨patience, 0, none, false, ⊤⟩

/-- One `__call__(val_loss, model)` of the `EarlyStopping` in
`src/utils/cfunctions.py`.  Returns the new state and whether
`torch.save(model.state_dict(), path)` ran during the call.  `score = -val_loss`;
on the first call the best score is recorded, `val_loss_min = -score`, and the
model IS saved; on `score <= best_score` the counter increments and the stop
flag is set once `counter >= patience`; otherwise `checkpoint` saves the model
and records `val_loss_min = val_loss`, and the counter resets. -/
def stepC (s : EarlyStopping) (val_loss : ℚ) : EarlyStopping × Bool :=
  let score := -val_loss
  match s.best_score with
  | none =>
    ({ s with best_score := some score, val_loss_min := ((-score : ℚ) : WithTop ℚ) }, true)
  | some best =>
    if score ≤ best then
      let c := s.counter + 1
      ({ s with counter := c,
                early_stop := if s.patience ≤ c then true else s.early_stop }, false)
    else
      ({ s with best_score := some score, counter := 0,
                val_loss_min := (val_loss : WithTop ℚ) }, true)

/-- One `__call__(val_loss, model)` of the duplicated `EarlyStopping` in
`src/reg_train.py`.  Identical to `stepC` except that on the first call the
`checkpoint` line is commented out: the best score is recorded but the model
is NOT saved. -/
def stepR (s : EarlyStopping) (val_loss : ℚ) : EarlyStopping × Bool :=
  let score := -val_loss
  match s.best_score with
  | none =>
    ({ s with best_score := some score, val_loss_min := ((-score : ℚ) : WithTop ℚ) }, false)
  | some best =>
    if score ≤ best then
      let c := s.counter + 1
      ({ s with counter := c,
                early_stop := if s.patience ≤ c then true else s.early_stop }, false)
    else
      ({ s with best_score := some score, counter := 0,
                val_loss_min := (val_loss : WithTop ℚ) }, true)

/-- Observing a sequence of validation losses with the
`src/utils/cfunctions.py` controller, one `__call__` per epoch. -/
def runES (s : EarlyStopping) (losses : List ℚ) : EarlyStopping :=
  losses.foldl (fun st l => (stepC st l).1) s

def esC1 : EarlyStopping × Bool := stepC (esInit 2) 5
def esC2 : EarlyStopping × Bool := stepC esC1.1 4
def esC3 : EarlyStopping × Bool := stepC esC2.1 4
def esC4 : EarlyStopping × Bool := stepC esC3.1 4
def esR1 : EarlyStopping × Bool := stepR (esInit 2) 5
def esR2 : EarlyStopping × Bool := stepR esR1.1 4
def esR3 : EarlyStopping × Bool := stepR esR2.1 4
def esR4 : EarlyStopping × Bool := stepR esR3.1 4

/-- C3 counterexample: the claim's "a checkpoint is persisted on the very
first observation" fails for the `EarlyStopping` copy in `src/reg_train.py`
(one of the claim's two cited implementations): its first call records the
best score but does not save the model — the `checkpoint` call of the first
branch is commented out. -/
theorem earlystop_trace_cex :
    ¬(esR1.2 = true) ∧ esR1.2 = false ∧ esR1.1.best_score = some (-5) := by
  decide

/-- C3 amended: observed with the loss sequence `[5, 4, 4, 4]` and
`patience = 2`, both controllers follow the claimed trace — first call
`best_score := -5`; second call `-4 > -5` counts as an improvement, a
checkpoint is persisted, `best_score := -4`, counter resets to 0; third call
the tied score `-4` is no improvement, counter becomes 1; fourth call counter
becomes 2 and the stop flag becomes true — with a checkpoint persisted on the
very first call by the `src/utils/cfunctions.py` controller, but NOT by the
`src/reg_train.py` copy, which only records the score. -/
theorem earlystop_trace_amended :
    esC1.2 = true ∧ esC1.1.best_score = some (-5) ∧ esC1.1.counter = 0 ∧
      esC1.1.early_stop = false ∧
    esC2.2 = true ∧ esC2.1.best_score = some (-4) ∧ esC2.1.counter = 0 ∧
      esC2.1.early_stop = false ∧
    esC3.2 = false ∧ esC3.1.best_score = some (-4) ∧ esC3.1.counter = 1 ∧
      esC3.1.early_stop = false ∧
    esC4.2 = false ∧ esC4.1.best_score = some (-4) ∧ esC4.1.counter = 2 ∧
      esC4.1.early_stop = true ∧
    esR1.2 = false ∧ esR1.1.best_score = some (-5) ∧ esR1.1.counter = 0 ∧
      esR1.1.early_stop = false ∧
    esR2.2 = true ∧ esR2.1.best_score = some (-4) ∧ esR2.1.counter = 0 ∧
      esR2.1.early_stop = false ∧
    esR3.2 = false ∧ esR3.1.counter = 1 ∧ esR3.1.early_stop = false ∧
    esR4.2 = false ∧ esR4.1.counter = 2 ∧ esR4.1.early_stop = true := by
  decide

theorem stepC_stop_mono (s : EarlyStopping) (l : ℚ) (h : s.early_stop = true) :
    (stepC s l).1.early_stop = true := by
  unfold stepC
  cases hb : s.best_score with
  | none => simpa using h
  | some best =>
    by_cases hle : -l ≤ best
    · simp only [if_pos hle]
      split
      · rfl
      · exact h
    · simpa [hle] using h

theorem runES_stop_mono (losses : List ℚ) :
    ∀ s : EarlyStopping, s.early_stop = true → (runES s losses).early_stop = true := by
  induction losses with
  | nil => exact fun s h => h
  | cons l ls ih => exact fun s h => ih (stepC s l).1 (stepC_stop_mono s l h)

theorem stepC_patience (s : EarlyStopping) (l : ℚ) : (stepC s l).1.patience = s.patience := by
  unfold stepC
  cases s.best_score with
  | none => rfl
  | some best =>
    by_cases hle : -l ≤ best
    · simp only [if_pos hle]
    · simp only [if_neg hle]

theorem stepC_counter_inv (s : EarlyStopping) (l : ℚ) (hp : 1 ≤ s.patience)
    (hc : s.early_stop = false → s.counter < s.patience) :
    (stepC s l).1.early_stop = false → (stepC s l).1.counter < (stepC s l).1.patience := by
  unfold stepC
  cases hb : s.best_score with
  | none => exact fun hst => hc (by simpa using hst)
  | some best =>
    by_cases hle : -l ≤ best
    · simp only [if_pos hle]
      intro hst
      by_cases hpc : s.patience ≤ s.counter + 1
      · rw [if_pos hpc] at hst
        cases hst
      · omega
    · simp only [if_neg hle]
      exact fun _ => hp

theorem runES_counter_inv (losses : List ℚ) :
    ∀ s : EarlyStopping, 1 ≤ s.patience →
      (s.early_stop = false → s.counter < s.patience) →
      (runES s losses).patience = s.patience ∧
      ((runES s losses).early_stop = false →
        (runES s losses).counter < (runES s losses).patience) := by
  induction losses with
  | nil => exact fun s _ hc => ⟨rfl, hc⟩
  | cons l ls ih =>
    intro s hp hc
    have hstep := ih (stepC s l).1 (by rw [stepC_patience]; exact hp)
      (stepC_counter_inv s l hp hc)
    exact ⟨hstep.1.trans (stepC_patience s l), hstep.2⟩

/-- C9: for every sequence of `__call__`s on one
`src/utils/cfunctions.py` controller instance, once `early_stop` is true it
stays true on every later call (even an improving score never resets it);
from an un-stopped state a call sets the flag exactly when it is a
non-improvement (`score <= best_score`, ties included) that raises the
counter to at least the patience; and along any run from a fresh controller
with positive patience, the counter stays below the patience while the flag
is down — so the flag first rises exactly when the counter reaches the
configured patience. -/
theorem earlystop_terminal_spec :
    (∀ (s : EarlyStopping) (losses : List ℚ), s.early_stop = true →
      (runES s losses).early_stop = true) ∧
    (∀ (s : EarlyStopping) (l : ℚ), s.early_stop = false →
      ((stepC s l).1.early_stop = true ↔
        (∃ best, s.best_score = some best ∧ -l ≤ best) ∧ s.patience ≤ s.counter + 1)) ∧
    (∀ (p : ℕ) (losses : List ℚ), 1 ≤ p →
      (runES (esInit p) losses).early_stop = false →
      (runES (esInit p) losses).counter < p) := by
  refine ⟨fun s losses h => runES_stop_mono losses s h, ?_, ?_⟩
  · intro s l h
    unfold stepC
    cases hb : s.best_score with
    | none =>
      simp [h]
    | some best =>
      by_cases hle : -l ≤ best
      · simp only [if_pos hle]
        constructor
        · intro hst
          by_cases hpc : s.patience ≤ s.counter + 1
          · exact ⟨⟨best, rfl, hle⟩, hpc⟩
          · rw [if_neg hpc] at hst
            exact absurd (h ▸ hst) (by simp)
        · intro ⟨_, hpc⟩
          rw [if_pos hpc]
      · simp only [if_neg hle]
        rw [h]
        simp only [Bool.false_eq_true, false_iff, not_and]
        rintro ⟨best', hbest', hle'⟩
        rw [Option.some.injEq] at hbest'
        exact absurd (hbest' ▸ hle') hle
  · intro p losses hp
    have := runES_counter_inv losses (esInit p) hp (fun _ => hp)
    rw [this.1] at this
    exact this.2

theorem earlystop_terminal_spec_witness :
    (runES ⟨2, 0, some 0, true, ⊤⟩ [1, 2]).early_stop = true ∧
    ((stepC ⟨2, 1, some (-3), false, ⊤⟩ 3).1.early_stop = true ↔
      (∃ best, (⟨2, 1, some (-3), false, ⊤⟩ : EarlyStopping).best_score = some best ∧
        -(3 : ℚ) ≤ best) ∧ (2 : ℕ) ≤ 1 + 1) ∧
    ((runES (esInit 2) [5, 4, 4, 4]).early_stop = false →
      (runES (esInit 2) [5, 4, 4, 4]).counter < 2) :=
  ⟨earlystop_terminal_spec.1 ⟨2, 0, some 0, true, ⊤⟩ [1, 2] rfl,
   earlystop_terminal_spec.2.1 ⟨2, 1, some (-3), false, ⊤⟩ 3 rfl,
   earlystop_terminal_spec.2.2 2 [5, 4, 4, 4] (by decide)⟩

/-- Embedding of `regvarloss(y_true, y_pre_ave, y_pre_var)` from
`src/utils/cfunctions.py`: elementwise
`exp(-y_pre_var) * (y_true - y_pre_ave)² / 2 + y_pre_var / 2` over the
(equal-shape) tensors, then `torch.sum`. -/
noncomputable def regvarloss (y_true y_pre_ave y_pre_var : List ℝ) : ℝ :=
  (List.zipWith (fun p v => Real.exp (-v) * (p.1 - p.2) ^ 2 / 2 + v / 2)
    (y_true.zip y_pre_ave) y_pre_var).sum

/-- C6: for every triple of equal-length sequences (label, predicted mean,
predicted log-variance), `regvarloss` is the SUM over all examples of
`exp(-logvar)·(label-mean)²/2 + logvar/2`, with no division by the number of
examples; in particular duplicating all examples doubles the loss (a mean
would leave it unchanged). -/
theorem regvarloss_spec :
    (∀ (y μ v : List ℝ) (n : ℕ), y.length = n → μ.length = n → v.length = n →
      regvarloss y μ v = ∑ i in Finset.range n,
        (Real.exp (-(v.getD i 0)) * (y.getD i 0 - μ.getD i 0) ^ 2 / 2 + v.getD i 0 / 2)) ∧
    (∀ y μ v : List ℝ, y.length = μ.length → μ.length = v.length →
      regvarloss (y ++ y) (μ ++ μ) (v ++ v) = 2 * regvarloss y μ v) := by
  constructor
  · intro y
    induction y with
    | nil =>
      intro μ v n hy hμ hv
      rw [← hy] at *
      simp [regvarloss]
    | cons a y ih =>
      intro μ v n hy hμ hv
      cases μ with
      | nil => rw [← hy] at hμ; cases hμ
      | cons b μ =>
        cases v with
        | nil => rw [← hy] at hv; cases hv
        | cons c v =>
          cases n with
          | zero => cases hy
          | succ n =>
            rw [List.length_cons, Nat.succ_inj] at hy hμ hv
            rw [Finset.sum_range_succ']
            simp only [List.getD_cons_succ, List.getD_cons_zero]
            rw [← ih μ v n hy hμ hv]
            simp [regvarloss, add_comm]
  · intro y μ v hyμ hμv
    have hzip : (y ++ y).zip (μ ++ μ) = y.zip μ ++ y.zip μ := List.zip_append hyμ
    have hlen : (y.zip μ).length = v.length := by
      rw [List.length_zip, hyμ, hμv, min_self]
    rw [regvarloss, hzip, List.zipWith_append _ _ _ _ _ hlen, List.sum_append, regvarloss,
      two_mul]

theorem regvarloss_spec_witness :
    ([1] : List ℝ).length = 1 ∧
    regvarloss [1] [0] [0] = ∑ i in Finset.range 1,
      (Real.exp (-(([0] : List ℝ).getD i 0)) *
        (([1] : List ℝ).getD i 0 - ([0] : List ℝ).getD i 0) ^ 2 / 2 +
        ([0] : List ℝ).getD i 0 / 2) :=
  ⟨rfl, regvarloss_spec.1 [1] [0] [0] 1 rfl rfl rfl⟩
